import Mathlib

set_option maxHeartbeats 1000000

/-!
Verification development for the `git-lfs-cache` transfer agent.

The definitions below are shallow embeddings of the Rust sources:

* `ChannelM` models the fan-out streaming channel of `src/channel.rs`
  (`Writer::write` / `Writer::finish` / `Reader::stream` / `Channel::keep`)
  as an interleaved transition system.  Bytes are `Nat`, blocks are
  `List Nat`.  The published watch value is the pair `(size, eof)`;
  `closed` records that the watch sender was dropped.  Because the writer
  goes through a buffered writer on top of an asynchronous file, the bytes
  handed to `write` (`written`) become visible in the backing file
  (`flushed`) at a nondeterministic time relative to the publication of
  the new length: `write(data)` is split into its two source phases, the
  `write_all` effect and the `send_modify` publication, with background
  flush steps free to run in between.
* `ResetM` models `Writer::reset`, which is referenced by
  `src/channel/tests.rs` and `src/cache/http.rs` but absent from the
  `src/channel.rs` snapshot; it is modelled from the spec.
* `download`, `batchPhase`, `serverDiscoveryM` model the download pipeline
  of `src/transfer_agent.rs` with oracles for the asynchronous sub-calls.
* `getAttempt` / `putAttempt` model the backoff classification of
  `src/cache/http.rs`.
* `progressRun` models the `progress` reporter of `src/transfer_agent.rs`.
* `serverDiscoveryHrefPath` models the href computation of
  `src/git_lfs/server_discovery.rs` for http(s) remotes.
* `cachePath` / `fsGet` / `fsPut` model the entry addressing of
  `src/cache/filesystem.rs`, with `Option` capturing the slice panics.
-/

namespace ChannelM

/-- Shared channel state (src/channel.rs).  `written` are the bytes handed to
the `BufWriter` so far, `flushed` counts how many of them are visible in the
backing file, `size`/`eof` form the published `watch` value, and `closed`
records that the watch sender was dropped. -/
structure Chan where
  written : List Nat
  flushed : Nat
  size : Nat
  eof : Bool
  closed : Bool
deriving DecidableEq, Repr

/-- Control state of the writer task.  `ready rest` means the writer is about
to call `write` on the blocks of `rest` (then `finish` once `rest` is empty);
`wrote n rest` means `write_all` of an `n`-byte block completed but the new
length is not yet published; `finishing` means `finish`'s flush completed but
`eof` is not yet published; `dropped` means the writer was dropped without
completing `finish`. -/
inductive WPhase where
  | ready (rest : List (List Nat))
  | wrote (n : Nat) (rest : List (List Nat))
  | finishing
  | done
  | dropped
deriving DecidableEq, Repr

/-- Program counter of one reader cursor produced by `Reader::stream`
(src/channel.rs lines 88-120).  `wait` is the `wait_for` at the loop head;
`branch sz eo` holds the observed watch pair; `readq sz` is the inner
`fill_buf` loop; `doneOk` is normal end of stream; `failed` is the
broken-pipe failure. -/
inductive RPC where
  | wait
  | branch (sz : Nat) (eo : Bool)
  | readq (sz : Nat)
  | doneOk
  | failed
deriving DecidableEq, Repr

/-- Local state of one reader cursor: its byte position, the blocks emitted so
far, and its program counter. -/
structure RState where
  pos : Nat
  out : List (List Nat)
  pc : RPC
deriving DecidableEq, Repr

/-- Whole-system state: the shared channel, the writer phase and one reader
cursor.  Reader cursors do not write shared state, so one cursor suffices to
model any number of them, opened at any time. -/
structure Sys where
  chan : Chan
  w : WPhase
  r : RState
deriving DecidableEq, Repr

/-- Initial state for a writer script `bs` (the sequence of blocks the writer
will `write` before calling `finish`), with a reader cursor at offset zero. -/
def initSys (bs : List (List Nat)) : Sys :=
  ⟨⟨[], 0, 0, false, false⟩, .ready bs, ⟨0, [], .wait⟩⟩

/-- Bytes appended by `write_all` but not yet published by `send_modify`. -/
def wpend : WPhase → Nat
  | .wrote n _ => n
  | _ => 0

/-- Blocks of the writer script not yet appended. -/
def scriptRest : WPhase → List (List Nat)
  | .ready rest => rest
  | .wrote _ rest => rest
  | _ => []

/-- One interleaving step of the channel system.  Writer steps mirror
`Writer::write` (append, then publish), the nondeterministic visibility of
buffered file writes (`wFlush`), `Writer::finish` (flush, then publish `eof`,
then the sender drop when `finish` consumes the writer), and dropping the
writer without `finish`.  Reader steps mirror the `try_unfold` loop of
`Reader::stream`: observe the watch pair, branch on `pos < size`, read a
non-empty block from the flushed part of the file, or fail with broken pipe
when the watch channel is closed. -/
inductive Step : Sys → Sys → Prop where
  | wAppend (c : Chan) (b : List Nat) (rest : List (List Nat)) (r : RState) :
      Step ⟨c, .ready (b :: rest), r⟩
           ⟨{ c with written := c.written ++ b }, .wrote b.length rest, r⟩
  | wPublish (c : Chan) (n : Nat) (rest : List (List Nat)) (r : RState) :
      Step ⟨c, .wrote n rest, r⟩ ⟨{ c with size := c.size + n }, .ready rest, r⟩
  | wFlush (c : Chan) (w : WPhase) (r : RState) (f : Nat)
      (h1 : c.flushed ≤ f) (h2 : f ≤ c.written.length) :
      Step ⟨c, w, r⟩ ⟨{ c with flushed := f }, w, r⟩
  | wFinFlush (c : Chan) (r : RState) :
      Step ⟨c, .ready [], r⟩ ⟨{ c with flushed := c.written.length }, .finishing, r⟩
  | wFinEof (c : Chan) (r : RState) :
      Step ⟨c, .finishing, r⟩ ⟨{ c with eof := true }, .done, r⟩
  | wSenderDrop (c : Chan) (r : RState) :
      Step ⟨c, .done, r⟩ ⟨{ c with closed := true }, .done, r⟩
  | wDropReady (c : Chan) (rest : List (List Nat)) (r : RState) :
      Step ⟨c, .ready rest, r⟩ ⟨{ c with closed := true }, .dropped, r⟩
  | wDropWrote (c : Chan) (n : Nat) (rest : List (List Nat)) (r : RState) :
      Step ⟨c, .wrote n rest, r⟩ ⟨{ c with closed := true }, .dropped, r⟩
  | wDropFin (c : Chan) (r : RState) :
      Step ⟨c, .finishing, r⟩ ⟨{ c with closed := true }, .dropped, r⟩
  | rObserve (c : Chan) (w : WPhase) (p : Nat) (out : List (List Nat))
      (h : p < c.size ∨ c.eof = true) :
      Step ⟨c, w, ⟨p, out, .wait⟩⟩ ⟨c, w, ⟨p, out, .branch c.size c.eof⟩⟩
  | rObserveFail (c : Chan) (w : WPhase) (p : Nat) (out : List (List Nat))
      (hc : c.closed = true) (h : ¬(p < c.size ∨ c.eof = true)) :
      Step ⟨c, w, ⟨p, out, .wait⟩⟩ ⟨c, w, ⟨p, out, .failed⟩⟩
  | rBranchRead (c : Chan) (w : WPhase) (p : Nat) (out : List (List Nat))
      (sz : Nat) (eo : Bool) (h : p < sz) :
      Step ⟨c, w, ⟨p, out, .branch sz eo⟩⟩ ⟨c, w, ⟨p, out, .readq sz⟩⟩
  | rBranchDone (c : Chan) (w : WPhase) (p : Nat) (out : List (List Nat))
      (sz : Nat) (eo : Bool) (h : sz ≤ p) (he : eo = true) :
      Step ⟨c, w, ⟨p, out, .branch sz eo⟩⟩ ⟨c, w, ⟨p, out, .doneOk⟩⟩
  | rFill (c : Chan) (w : WPhase) (p : Nat) (out : List (List Nat))
      (sz : Nat) (k : Nat) (hk : 0 < k) (hf : p + k ≤ c.flushed) :
      Step ⟨c, w, ⟨p, out, .readq sz⟩⟩
           ⟨c, w, ⟨p + k, out ++ [(c.written.drop p).take k], .wait⟩⟩
  | rChangedFail (c : Chan) (w : WPhase) (p : Nat) (out : List (List Nat))
      (sz : Nat) (hf : c.flushed ≤ p) (hc : c.closed = true) :
      Step ⟨c, w, ⟨p, out, .readq sz⟩⟩ ⟨c, w, ⟨p, out, .failed⟩⟩

/-- Finitely many interleaving steps. -/
def Steps : Sys → Sys → Prop := Relation.ReflTransGen Step

/-- States reachable from the initial state for writer script `bs`. -/
def Reach (bs : List (List Nat)) (s : Sys) : Prop :=
  Steps (initSys bs) s

/-- Inductive invariant of the channel system for writer script `bs`. -/
structure Inv (bs : List (List Nat)) (s : Sys) : Prop where
  hfl : s.chan.flushed ≤ s.chan.written.length
  hsz : s.w ≠ .dropped → s.chan.written.length = s.chan.size + wpend s.w
  hszle : s.chan.size ≤ s.chan.written.length
  hscript : s.w ≠ .dropped → s.chan.written ++ (scriptRest s.w).flatten = bs.flatten
  heofPhase : s.chan.eof = true → s.w = .done
  hdoneEof : s.w = .done → s.chan.eof = true
  heofFlushed : s.chan.eof = true → s.chan.flushed = s.chan.written.length
  hfinFlushed : s.w = .finishing → s.chan.flushed = s.chan.written.length
  hclosed : s.chan.closed = true → s.w = .done ∨ s.w = .dropped
  hdropClosed : s.w = .dropped → s.chan.closed = true
  hpos : s.r.pos ≤ s.chan.flushed
  hout : s.r.out.flatten = s.chan.written.take s.r.pos
  hbranch : ∀ sz eo, s.r.pc = .branch sz eo →
      sz ≤ s.chan.size ∧ (s.r.pos < sz ∨ eo = true) ∧
      (eo = true → s.chan.eof = true ∧ sz = s.chan.size)
  hreadq : ∀ sz, s.r.pc = .readq sz → s.r.pos < sz ∧ sz ≤ s.chan.size
  hdone : s.r.pc = .doneOk → s.chan.eof = true ∧ s.r.pos = s.chan.size
  hfailed : s.r.pc = .failed → s.w = .dropped

/-- Writer script of the concrete witness run: `write [1]; write [2]; finish`. -/
def c1Script : List (List Nat) := [[1], [2]]

/-- End state of the witness run: both blocks written, published and flushed,
eof published, and the reader cursor terminated normally after emitting one
block holding all the bytes. -/
def c1Done : Sys :=
  ⟨⟨[1, 2], 2, 2, true, false⟩, .done, ⟨2, [[1, 2]], .doneOk⟩⟩

/-- Writer script of the drop witness run. -/
def c5Script : List (List Nat) := [[5]]

/-- State after the writer is dropped before writing anything. -/
def c5Drop : Sys :=
  ⟨⟨[], 0, 0, false, true⟩, .dropped, ⟨0, [], .wait⟩⟩

/-- Writer script of the counterexample run: a 1-byte block followed by an
8192-byte block (the buffered writer's capacity, so the second `write_all`
writes through to the file before its length is published). -/
def c9Script : List (List Nat) := [[0], List.replicate 8192 0]

/-- Reachable state in which the second block is already visible in the
backing file and was consumed by the reader while only the first byte's
length is published: the cursor position 8192 exceeds the published length
1. -/
def c9State : Sys :=
  ⟨⟨0 :: List.replicate 8192 0, 8193, 1, false, false⟩,
   .wrote (List.replicate 8192 0).length [],
   ⟨8192, [(0 :: List.replicate 8192 0).take 8192], .wait⟩⟩

end ChannelM

/-- State of the `NamedTempFile` backing a channel (the `tempfile` crate
contract that `Channel::keep` and the channel's drop behaviour rely on):
`kept` records that `keep` was called, `onDisk` that the file still exists in
its directory. -/
structure TempState where
  kept : Bool
  onDisk : Bool
deriving DecidableEq, Repr

/-- Channel `keep`: persist the temporary file (src/channel.rs `Channel::keep`,
via `NamedTempFile::keep`). -/
def channelKeep (t : TempState) : TempState :=
  { t with kept := true }

/-- Dropping the channel: the `NamedTempFile` destructor unlinks the file
unless `keep` was called. -/
def channelDrop (t : TempState) : TempState :=
  if t.kept then t else { t with onDisk := false }

namespace ResetM

/-- Modelled from the spec: the published channel state seen by
`Writer::reset`, which is absent from the `src/channel.rs` snapshot (only its
tests in `src/channel/tests.rs` and its caller `src/cache/http.rs` are
present).  The spec's channel carries the byte contents, the published
length, the latched eof flag and a generation counter. -/
structure ChanR where
  content : List Nat
  size : Nat
  eof : Bool
  gen : Nat
deriving DecidableEq, Repr

/-- A channel as freshly initialised: empty file, length 0, eof unset. -/
def initR : ChanR := ⟨[], 0, false, 0⟩

/-- Modelled from the spec: `write(bytes)` appends and publishes the new
length. -/
def writeW (s : ChanR) (b : List Nat) : ChanR :=
  ⟨s.content ++ b, s.size + b.length, s.eof, s.gen⟩

/-- Modelled from the spec: `finish()` flushes and publishes `eof=true`. -/
def finishW (s : ChanR) : ChanR :=
  { s with eof := true }

/-- Modelled from the spec: `reset()` flushes, truncates the backing file to
length zero, then publishes `(length=0, eof=false, generation+1)`. -/
def resetW (s : ChanR) : ChanR :=
  ⟨[], 0, false, s.gen + 1⟩

/-- Modelled from the spec: a reader cursor that was opened at generation `g`
and has position `p` fails with a reset error (surfaced as broken pipe) as
soon as the generation changed while its position is nonzero; otherwise it
can read the rest of the published bytes. -/
def cursorRead (s : ChanR) (g p : Nat) : Except Unit (List Nat) :=
  if p ≠ 0 ∧ s.gen ≠ g then .error () else .ok (s.content.drop p)

/-- The reader-observable projection of the published state (contents,
length, eof) without the generation counter. -/
def obsR (s : ChanR) : List Nat × Nat × Bool :=
  (s.content, s.size, s.eof)

/-- Apply a sequence of writes. -/
def applyWrites (s : ChanR) (cs : List (List Nat)) : ChanR :=
  cs.foldl writeW s

end ResetM

/-- An `anyhow::Error` as the orchestrator distinguishes them: either it
downcasts to `git_lfs::Error` with this HTTP status code, or it is some other
error (the tag only keeps distinct errors distinct). -/
inductive AErr where
  | lfs (code : Nat)
  | other (tag : Nat)
deriving DecidableEq, Repr

/-- The `inner` part of a batch response object
(src/git_lfs/batch.rs `response::Inner`): either an action set whose
`download` action is optional (the action is abstracted to an id), or a
per-object error code. -/
inductive BInner where
  | actions (download : Option Nat)
  | error (code : Nat)
deriving DecidableEq, Repr

/-- One object of a batch response (oids abstracted to numbers). -/
structure BObject where
  oid : Nat
  inner : BInner
deriving DecidableEq, Repr

/-- A decoded batch response. -/
structure BatchResp where
  objects : List BObject
deriving DecidableEq, Repr

/-- Oracle environment for one `Context::download` call
(src/transfer_agent.rs lines 176-326): the results of each asynchronous
sub-call the pipeline makes, in order.  `hitGet`, `hitDigest`, `hitProgress`
are the three branches of the cache-hit `try_join3`; `cachedDisc` is the
session's cached discovery result; `disc0`/`disc1` the results of deriving
discovery with `authorize=false`/`true`; `batch1`/`batch2` the two possible
batch attempts; `getTransport`/`getStatus` the basic GET; and `writerTask`,
`putResult`, `missProgress` the three branches of the cache-miss
`try_join3`. -/
structure DownloadEnv where
  cacheConfigured : Bool
  hitGet : Except AErr Nat
  hitDigest : Except AErr Unit
  hitProgress : Except AErr Unit
  cachedDisc : Option Nat
  disc0 : Except AErr Nat
  disc1 : Except AErr Nat
  batch1 : Except AErr BatchResp
  batch2 : Except AErr BatchResp
  oid : Nat
  getTransport : Except AErr Unit
  getStatus : Nat
  writerTask : Except AErr Unit
  putResult : Except AErr Unit
  missProgress : Except AErr Unit
deriving Repr

/-- Trace of observable side effects of the batch phase: the `authorize`
flags of actual `git_lfs::server_discovery` derivations, and how many batch
requests were sent. -/
structure DTrace where
  derivations : List Bool
  batchCalls : Nat
deriving DecidableEq, Repr

/-- The empty trace. -/
def emptyTrace : DTrace := ⟨[], 0⟩

/-- Combined outcome of the cache-hit `try_join3` (cache.get, sha-256 digest
check, progress).  `try_join3` succeeds iff all three branches do; on failure
it returns the first error to complete, determinised here to the leftmost
failing branch. -/
def hitOutcome (env : DownloadEnv) : Except AErr Nat :=
  match env.hitGet with
  | .error e => .error e
  | .ok src =>
    match env.hitDigest with
    | .error e => .error e
    | .ok _ =>
      match env.hitProgress with
      | .error e => .error e
      | .ok _ => .ok src

/-- `Context::server_discovery` (src/transfer_agent.rs lines 152-173): reuse
the cached response unless none is cached or `authorization` is true, in
which case `git_lfs::server_discovery` is invoked (recorded in the trace). -/
def serverDiscoveryM (env : DownloadEnv) (auth : Bool) (tr : DTrace) :
    Except AErr Nat × DTrace :=
  match env.cachedDisc, auth with
  | some d, false => (.ok d, tr)
  | _, _ =>
    ((if auth then env.disc1 else env.disc0),
     { tr with derivations := tr.derivations ++ [auth] })

/-- Combined outcome of the cache-miss `try_join3` (response-body writer,
optional `cache.put`, progress), determinised to the leftmost failing
branch; `cache.put` only runs when a cache is configured. -/
def missJoin (env : DownloadEnv) : Except AErr Unit :=
  match env.writerTask with
  | .error e => .error e
  | .ok _ =>
    match (if env.cacheConfigured then env.putResult else .ok ()) with
    | .error e => .error e
    | .ok _ => env.missProgress

/-- The batch phase of the download pipeline (src/transfer_agent.rs lines
232-256): discovery without credentials, one batch attempt, and — exactly
when that attempt fails with a `git_lfs::Error` of status 401 — one
re-derivation with `authorize=true` followed by one retried batch attempt. -/
def batchPhase (env : DownloadEnv) : Except AErr BatchResp × DTrace :=
  match serverDiscoveryM env false emptyTrace with
  | (.error e, tr) => (.error e, tr)
  | (.ok _, tr) =>
    let tr1 : DTrace := { tr with batchCalls := tr.batchCalls + 1 }
    match env.batch1 with
    | .ok resp => (.ok resp, tr1)
    | .error e =>
      if e = .lfs 401 then
        match serverDiscoveryM env true tr1 with
        | (.error e2, tr2) => (.error e2, tr2)
        | (.ok _, tr2) =>
          (env.batch2, { tr2 with batchCalls := tr2.batchCalls + 1 })
      else (.error e, tr1)

/-- The rest of the miss path after a successful batch response
(src/transfer_agent.rs lines 258-324): locate the object with the requested
oid, require a `download` action, issue the GET, and on a 2xx status fan out
to the writer, the optional `cache.put` and the progress reporter.  The
successful path returns the kept file (abstracted to the id 1). -/
def afterBatch (env : DownloadEnv) (resp : BatchResp) : Except AErr Nat :=
  match resp.objects.find? (fun o => o.oid = env.oid) with
  | none => .error (.other 100)
  | some o =>
    match o.inner with
    | .actions none => .error (.other 101)
    | .actions (some _) =>
      match env.getTransport with
      | .error e => .error e
      | .ok _ =>
        if 200 ≤ env.getStatus ∧ env.getStatus < 300 then
          match missJoin env with
          | .error e => .error e
          | .ok _ => .ok 1
        else .error (.lfs env.getStatus)
    | .error code => .error (.lfs code)

/-- The fallback (authoritative-server) path: batch phase then miss path. -/
def fallbackResult (env : DownloadEnv) : Except AErr Nat × DTrace :=
  match batchPhase env with
  | (.error e, tr) => (.error e, tr)
  | (.ok resp, tr) => (afterBatch env resp, tr)

/-- `Context::download` (src/transfer_agent.rs lines 176-326): when a cache
is configured, try the cache-hit fan-out first; if it succeeds the kept path
(abstracted to the id 0) is returned, and on any failure of the hit attempt
the pipeline falls back to the authoritative server. -/
def download (env : DownloadEnv) : Except AErr Nat × DTrace :=
  if env.cacheConfigured then
    match hitOutcome env with
    | .ok _ => (.ok 0, emptyTrace)
    | .error _ => fallbackResult env
  else fallbackResult env

/-- Concrete download environment for the counterexample: the cache is
configured, the cache-hit attempt fails (`cache.get` returns a 500), the
batch and the basic GET succeed, and `cache.put` on the miss path fails with
a 500. -/
def c2Env : DownloadEnv :=
  ⟨true, .error (.lfs 500), .ok (), .ok (), none, .ok 0, .ok 0,
   .ok ⟨[⟨7, .actions (some 0)⟩]⟩, .ok ⟨[⟨7, .actions (some 0)⟩]⟩, 7, .ok (), 200,
   .ok (), .error (.lfs 500), .ok ()⟩

/-- Concrete download environment whose first batch attempt fails with 401
and whose retried attempt succeeds. -/
def c6Env : DownloadEnv :=
  { c2Env with batch1 := .error (.lfs 401), putResult := .ok () }

/-- Oracle for one attempt of the generic HTTP cache backend's `get` or
`put` (src/cache/http.rs): whether request construction succeeded, whether
the transport-level request succeeded, the response status, whether the
channel-writer operations (`reset`/`write`, get only) succeeded, and whether
reading the response body stream succeeded. -/
structure HttpAttemptEnv where
  buildOk : Bool
  sendOk : Bool
  status : Nat
  writerOk : Bool
  streamOk : Bool
deriving DecidableEq, Repr

/-- Classification of one attempt's outcome as fed to
`backoff::future::retry`. -/
inductive BackoffClass where
  | ok
  | transient (e : AErr)
  | permanent (e : AErr)
deriving DecidableEq, Repr

/-- One attempt of `Cache::get` (src/cache/http.rs lines 68-116): request
construction errors are permanent, the transport request is transient, on a
2xx the writer reset/writes are permanent and body-frame errors transient,
and on a non-2xx the collected error body yields a transient error for
status 408 or any 5xx and a permanent error otherwise. -/
def getAttempt (a : HttpAttemptEnv) : BackoffClass :=
  if a.buildOk = false then .permanent (.other 0)
  else if a.sendOk = false then .transient (.other 1)
  else if 200 ≤ a.status ∧ a.status < 300 then
    if a.writerOk = false then .permanent (.other 2)
    else if a.streamOk = false then .transient (.other 3)
    else .ok
  else
    if a.streamOk = false then .transient (.other 3)
    else if a.status = 408 ∨ (500 ≤ a.status ∧ a.status < 600) then
      .transient (.lfs a.status)
    else .permanent (.lfs a.status)

/-- One attempt of `Cache::put` (src/cache/http.rs lines 130-172): request
construction (including `reader.stream()`) is permanent, the transport
request — which also streams the body — is transient, and non-2xx statuses
are classified as in `get`. -/
def putAttempt (a : HttpAttemptEnv) : BackoffClass :=
  if a.buildOk = false then .permanent (.other 0)
  else if a.sendOk = false then .transient (.other 1)
  else if 200 ≤ a.status ∧ a.status < 300 then .ok
  else
    if a.streamOk = false then .transient (.other 3)
    else if a.status = 408 ∨ (500 ≤ a.status ∧ a.status < 600) then
      .transient (.lfs a.status)
    else .permanent (.lfs a.status)

/-- One emitted `Progress` response (src/transfer_agent.rs `progress`). -/
structure PEvent where
  bytesSoFar : Nat
  bytesSinceLast : Nat
deriving DecidableEq, Repr

/-- One loop iteration of `progress` (src/transfer_agent.rs lines 329-363):
add the block's length to both counters and emit an event — resetting
`bytes_since_last` — once at least `1 << 16` unreported bytes accumulated. -/
def pstep (acc : Nat × Nat × List PEvent) (b : List Nat) :
    Nat × Nat × List PEvent :=
  let sf := acc.1 + b.length
  let sl := acc.2.1 + b.length
  if 65536 ≤ sl then (sf, 0, acc.2.2 ++ [⟨sf, sl⟩]) else (sf, sl, acc.2.2)

/-- The events emitted by `progress` for a given sequence of byte blocks,
including the final flush of a nonzero `bytes_since_last`. -/
def progressRun (blocks : List (List Nat)) : List PEvent :=
  let acc := blocks.foldl pstep (0, 0, [])
  if 0 < acc.2.1 then acc.2.2 ++ [⟨acc.1, acc.2.1⟩] else acc.2.2

/-- Total number of bytes in a sequence of blocks. -/
def totalBytes (blocks : List (List Nat)) : Nat :=
  (blocks.map List.length).sum

/-- The reversed characters of the suffix `.git`. -/
def revGit : List Char := ['t', 'i', 'g', '.']

/-- The characters of the suffix `.git`. -/
def gitSuffix : List Char := ['.', 'g', 'i', 't']

/-- The characters appended to the trimmed path by the href computation. -/
def gitInfoLfs : List Char := ['.', 'g', 'i', 't', '/', 'i', 'n', 'f', 'o', '/', 'l', 'f', 's']

/-- Fuel-indexed repeated stripping of the reversed `.git` suffix from a
reversed path. -/
def stripGitAux : Nat → List Char → List Char
  | 0, s => s
  | fuel + 1, s => if s.take 4 = revGit then stripGitAux fuel (s.drop 4) else s

/-- Strip every leading copy of the reversed `.git` suffix. -/
def stripGitRev (s : List Char) : List Char :=
  stripGitAux s.length s

/-- Rust's `path.trim_end_matches(".git")`: remove all trailing repetitions
of `.git` (src/git_lfs/server_discovery.rs line 87). -/
def trimEndGit (s : List Char) : List Char :=
  (stripGitRev s.reverse).reverse

/-- `k` concatenated copies of `.git`. -/
def repGit (k : Nat) : List Char :=
  (List.replicate k gitSuffix).flatten

/-- The path of the discovered href for an http(s) remote
(src/git_lfs/server_discovery.rs lines 83-92): a custom configured URL is
returned verbatim; otherwise `set_path(trim_end_matches(".git") ++ ".git")`
followed by pushing the segments `info` and `lfs`. -/
def serverDiscoveryHrefPath (custom : Bool) (path : List Char) : List Char :=
  if custom then path else trimEndGit path ++ gitInfoLfs

/-- The spec's words, for comparison with `serverDiscoveryHrefPath`: the href
is the base with an existing `.git` suffix stripped AT MOST ONCE, then
`.git/info/lfs` appended. -/
def specHrefPathStripOnce (custom : Bool) (path : List Char) : List Char :=
  if custom then path
  else
    (if path.reverse.take 4 = revGit then (path.reverse.drop 4).reverse else path)
      ++ gitInfoLfs

/-- Byte-range slicing `s[a..b]` of a Rust `&str` whose characters are all
single-byte: `none` models the panic on an out-of-range index
(src/cache/filesystem.rs line 79 slices `oid[..2]` and `oid[2..4]` with no
length check). -/
def strSlice (s : List Char) (a b : Nat) : Option (List Char) :=
  if a ≤ b ∧ b ≤ s.length then some ((s.drop a).take (b - a)) else none

/-- `Cache::path` of the filesystem backend
(src/cache/filesystem.rs lines 78-80): the entry address
`dir/<oid[0:2]>/<oid[2:4]>/<oid>` as a list of path segments after the root;
`none` models the slice panic. -/
def cachePath (oid : List Char) : Option (List (List Char)) :=
  match strSlice oid 0 2, strSlice oid 2 4 with
  | some a, some b => some [a, b, oid]
  | _, _ => none

/-- The entry address used by `Cache::get` (src/cache/filesystem.rs lines
34-53), which computes `self.path(oid)` before any I/O; the subsequent file
streaming is abstracted away.  `none` models the panic reaching the caller
before any error can be returned. -/
def fsGet (oid : List Char) : Option (List (List Char)) :=
  cachePath oid

/-- The entry address used by `Cache::put` (src/cache/filesystem.rs lines
56-76), which also computes `self.path(oid)` first; the temp-file write and
rename are abstracted away. -/
def fsPut (oid : List Char) : Option (List (List Char)) :=
  cachePath oid

namespace ChannelM

theorem inv_init (bs : List (List Nat)) : Inv bs (initSys bs) := by
  refine ⟨?_, ?_, ?_, ?_, ?_, ?_, ?_, ?_, ?_, ?_, ?_, ?_, ?_, ?_, ?_, ?_⟩ <;>
    simp [initSys, wpend, scriptRest]

theorem inv_step {bs : List (List Nat)} {s t : Sys}
    (hst : Step s t) (hInv : Inv bs s) : Inv bs t := by
  obtain ⟨hfl, hsz, hszle, hscript, heofPhase, hdoneEof, heofFlushed, hfinFlushed,
    hclosed, hdropClosed, hpos, hout, hbranch, hreadq, hdone, hfailed⟩ := hInv
  cases hst with
  | wAppend c b rest r =>
    refine ⟨le_trans hfl (by simp), ?_, ?_, ?_, ?_, ?_, ?_, ?_, ?_, ?_, hpos, ?_,
      hbranch, hreadq, hdone, ?_⟩
    · intro _
      have h : c.written.length = c.size + 0 := hsz (by simp)
      show (c.written ++ b).length = c.size + b.length
      simp only [List.length_append]
      omega
    · have h1 : c.size ≤ c.written.length := hszle
      show c.size ≤ (c.written ++ b).length
      simp only [List.length_append]
      omega
    · intro _
      have h := hscript (by simp)
      simp only [scriptRest, List.flatten_cons, List.append_assoc] at h ⊢
      exact h
    · intro h; exact absurd (heofPhase h) (by simp)
    · intro h; simp at h
    · intro h; exact absurd (heofPhase h) (by simp)
    · intro h; simp at h
    · intro h; rcases hclosed h with h' | h' <;> simp at h'
    · intro h; simp at h
    · rw [List.take_append_of_le_length (le_trans hpos hfl)]
      exact hout
    · intro h; exact absurd (hfailed h) (by simp)
  | wPublish c n rest r =>
    refine ⟨hfl, ?_, ?_, ?_, ?_, ?_, heofFlushed, ?_, ?_, ?_, hpos, hout, ?_, ?_, ?_, ?_⟩
    · intro _
      have h : c.written.length = c.size + n := hsz (by simp)
      show c.written.length = c.size + n + 0
      omega
    · have h : c.written.length = c.size + n := hsz (by simp)
      show c.size + n ≤ c.written.length
      omega
    · intro _
      have h := hscript (by simp)
      simpa [scriptRest] using h
    · intro h; exact absurd (heofPhase h) (by simp)
    · intro h; simp at h
    · intro h; simp at h
    · intro h; rcases hclosed h with h' | h' <;> simp at h'
    · intro h; simp at h
    · intro sz eo h
      obtain ⟨h1, h2, h3⟩ := hbranch sz eo h
      exact ⟨le_trans h1 (Nat.le_add_right _ _), h2,
        fun he => absurd (heofPhase (h3 he).1) (by simp)⟩
    · intro sz h
      exact ⟨(hreadq sz h).1, le_trans (hreadq sz h).2 (Nat.le_add_right _ _)⟩
    · intro h; exact absurd (heofPhase (hdone h).1) (by simp)
    · intro h; exact absurd (hfailed h) (by simp)
  | wFlush c w r f h1 h2 =>
    refine ⟨h2, hsz, hszle, hscript, heofPhase, hdoneEof, ?_, ?_, hclosed, hdropClosed,
      le_trans hpos h1, hout, hbranch, hreadq, hdone, hfailed⟩
    · intro h
      have h3 : c.flushed = c.written.length := heofFlushed h
      show f = c.written.length
      omega
    · intro h
      have h3 : c.flushed = c.written.length := hfinFlushed h
      show f = c.written.length
      omega
  | wFinFlush c r =>
    refine ⟨le_refl _, ?_, hszle, ?_, ?_, ?_, ?_, fun _ => rfl, ?_, ?_,
      le_trans hpos hfl, hout, hbranch, hreadq, hdone, ?_⟩
    · intro _
      have h := hsz (by simp)
      simpa [wpend] using h
    · intro _
      have h := hscript (by simp)
      simpa [scriptRest] using h
    · intro h; exact absurd (heofPhase h) (by simp)
    · intro h; simp at h
    · intro _; rfl
    · intro h; rcases hclosed h with h' | h' <;> simp at h'
    · intro h; simp at h
    · intro h; exact absurd (hfailed h) (by simp)
  | wFinEof c r =>
    refine ⟨hfl, ?_, hszle, ?_, fun _ => rfl, fun _ => rfl, fun _ => hfinFlushed rfl, ?_,
      ?_, ?_, hpos, hout, ?_, hreadq, ?_, ?_⟩
    · intro _
      have h := hsz (by simp)
      simpa [wpend] using h
    · intro _
      have h := hscript (by simp)
      simpa [scriptRest] using h
    · intro h; simp at h
    · intro h; rcases hclosed h with h' | h' <;> simp at h'
    · intro h; simp at h
    · intro sz eo h
      obtain ⟨h1, h2, h3⟩ := hbranch sz eo h
      exact ⟨h1, h2, fun he => absurd (heofPhase (h3 he).1) (by simp)⟩
    · intro h; exact absurd (heofPhase (hdone h).1) (by simp)
    · intro h; exact absurd (hfailed h) (by simp)
  | wSenderDrop c r =>
    refine ⟨hfl, hsz, hszle, hscript, heofPhase, hdoneEof, heofFlushed, hfinFlushed,
      fun _ => Or.inl rfl, ?_, hpos, hout, hbranch, hreadq, hdone, ?_⟩
    · intro h; simp at h
    · intro h; exact absurd (hfailed h) (by simp)
  | wDropReady c rest r =>
    refine ⟨hfl, ?_, ?_, ?_, ?_, ?_, heofFlushed, ?_, fun _ => Or.inr rfl, fun _ => rfl,
      hpos, hout, hbranch, hreadq, ?_, fun _ => rfl⟩
    · intro h; exact absurd rfl h
    · have h := hsz (by simp)
      simp only [wpend] at h
      show c.size ≤ c.written.length
      omega
    · intro h; exact absurd rfl h
    · intro h; exact absurd (heofPhase h) (by simp)
    · intro h; simp at h
    · intro h; simp at h
    · intro h; exact absurd (heofPhase (hdone h).1) (by simp)
  | wDropWrote c n rest r =>
    refine ⟨hfl, ?_, ?_, ?_, ?_, ?_, heofFlushed, ?_, fun _ => Or.inr rfl, fun _ => rfl,
      hpos, hout, hbranch, hreadq, ?_, fun _ => rfl⟩
    · intro h; exact absurd rfl h
    · have h := hsz (by simp)
      simp only [wpend] at h
      show c.size ≤ c.written.length
      omega
    · intro h; exact absurd rfl h
    · intro h; exact absurd (heofPhase h) (by simp)
    · intro h; simp at h
    · intro h; simp at h
    · intro h; exact absurd (heofPhase (hdone h).1) (by simp)
  | wDropFin c r =>
    refine ⟨hfl, ?_, ?_, ?_, ?_, ?_, heofFlushed, ?_, fun _ => Or.inr rfl, fun _ => rfl,
      hpos, hout, hbranch, hreadq, ?_, fun _ => rfl⟩
    · intro h; exact absurd rfl h
    · have h := hsz (by simp)
      simp only [wpend] at h
      show c.size ≤ c.written.length
      omega
    · intro h; exact absurd rfl h
    · intro h; exact absurd (heofPhase h) (by simp)
    · intro h; simp at h
    · intro h; simp at h
    · intro h; exact absurd (heofPhase (hdone h).1) (by simp)
  | rObserve c w p out h =>
    refine ⟨hfl, hsz, hszle, hscript, heofPhase, hdoneEof, heofFlushed, hfinFlushed,
      hclosed, hdropClosed, hpos, hout, ?_, ?_, ?_, ?_⟩
    · intro sz eo hpc
      rw [RPC.branch.injEq] at hpc
      obtain ⟨h1, h2⟩ := hpc
      subst h1; subst h2
      exact ⟨le_refl _, h, fun he => ⟨he, rfl⟩⟩
    · intro sz hpc; simp at hpc
    · intro hpc; simp at hpc
    · intro hpc; simp at hpc
  | rObserveFail c w p out hc h =>
    refine ⟨hfl, hsz, hszle, hscript, heofPhase, hdoneEof, heofFlushed, hfinFlushed,
      hclosed, hdropClosed, hpos, hout, ?_, ?_, ?_, ?_⟩
    · intro sz eo hpc; simp at hpc
    · intro sz hpc; simp at hpc
    · intro hpc; simp at hpc
    · intro _
      rcases hclosed hc with h' | h'
      · exact absurd (Or.inr (hdoneEof h')) h
      · exact h'
  | rBranchRead c w p out sz eo h =>
    refine ⟨hfl, hsz, hszle, hscript, heofPhase, hdoneEof, heofFlushed, hfinFlushed,
      hclosed, hdropClosed, hpos, hout, ?_, ?_, ?_, ?_⟩
    · intro sz' eo' hpc; simp at hpc
    · intro sz' hpc
      rw [RPC.readq.injEq] at hpc
      subst hpc
      exact ⟨h, (hbranch sz eo rfl).1⟩
    · intro hpc; simp at hpc
    · intro hpc; simp at hpc
  | rBranchDone c w p out sz eo h he =>
    refine ⟨hfl, hsz, hszle, hscript, heofPhase, hdoneEof, heofFlushed, hfinFlushed,
      hclosed, hdropClosed, hpos, hout, ?_, ?_, ?_, ?_⟩
    · intro sz' eo' hpc; simp at hpc
    · intro sz' hpc; simp at hpc
    · intro _
      obtain ⟨h1, h2, h3⟩ := hbranch sz eo rfl
      obtain ⟨heof, hszeq⟩ := h3 he
      have hwd : w = .done := heofPhase heof
      have hlen : c.written.length = c.size + wpend w := hsz (by rw [hwd]; simp)
      rw [hwd] at hlen
      simp only [wpend] at hlen
      have hfl2 : c.flushed = c.written.length := heofFlushed heof
      have hp : p ≤ c.flushed := hpos
      have hsz2 : sz = c.size := hszeq
      refine ⟨heof, ?_⟩
      show p = c.size
      omega
    · intro hpc; simp at hpc
  | rFill c w p out sz k hk hf =>
    refine ⟨hfl, hsz, hszle, hscript, heofPhase, hdoneEof, heofFlushed, hfinFlushed,
      hclosed, hdropClosed, hf, ?_, ?_, ?_, ?_, ?_⟩
    · simp only [List.flatten_append, List.flatten_cons, List.flatten_nil, List.append_nil]
      rw [hout]
      exact (List.take_add _ _ _).symm
    · intro sz' eo' hpc; simp at hpc
    · intro sz' hpc; simp at hpc
    · intro hpc; simp at hpc
    · intro hpc; simp at hpc
  | rChangedFail c w p out sz hf hc =>
    refine ⟨hfl, hsz, hszle, hscript, heofPhase, hdoneEof, heofFlushed, hfinFlushed,
      hclosed, hdropClosed, hpos, hout, ?_, ?_, ?_, ?_⟩
    · intro sz' eo' hpc; simp at hpc
    · intro sz' hpc; simp at hpc
    · intro hpc; simp at hpc
    · intro _
      rcases hclosed hc with h' | h'
      · exfalso
        have heof : c.eof = true := hdoneEof h'
        have hwd : w = .done := h'
        have hlen : c.written.length = c.size + wpend w := hsz (by rw [hwd]; simp)
        rw [hwd] at hlen
        simp only [wpend] at hlen
        have hfl2 : c.flushed = c.written.length := heofFlushed heof
        have hq1 : p < sz := (hreadq sz rfl).1
        have hq2 : sz ≤ c.size := (hreadq sz rfl).2
        have hf2 : c.flushed ≤ p := hf
        omega
      · exact h'

theorem inv_reach {bs : List (List Nat)} {s : Sys} (h : Reach bs s) : Inv bs s := by
  have h' : Relation.ReflTransGen Step (initSys bs) s := h
  clear h
  induction h' with
  | refl => exact inv_init bs
  | tail hab hbc ih => exact inv_step hbc ih

theorem reach_steps {bs : List (List Nat)} {s t : Sys}
    (h : Reach bs s) (h2 : Steps s t) : Reach bs t :=
  Relation.ReflTransGen.trans h h2

theorem step_keeps_dropped {s t : Sys} (h : Step s t) (hd : s.w = .dropped) :
    t.w = .dropped := by
  cases h <;> simp_all

theorem steps_keeps_dropped {s t : Sys} (h : Steps s t) (hd : s.w = .dropped) :
    t.w = .dropped := by
  have h' : Relation.ReflTransGen Step s t := h
  clear h
  induction h' with
  | refl => exact hd
  | tail hab hbc ih => exact step_keeps_dropped hbc ih

theorem step_keeps_done {s t : Sys} (h : Step s t) (hd : s.w = .done) :
    t.w = .done := by
  cases h <;> simp_all

theorem steps_keeps_done {s t : Sys} (h : Steps s t) (hd : s.w = .done) :
    t.w = .done := by
  have h' : Relation.ReflTransGen Step s t := h
  clear h
  induction h' with
  | refl => exact hd
  | tail hab hbc ih => exact step_keeps_done hbc ih

end ChannelM

namespace ChannelM

theorem done_progress (bs : List (List Nat)) :
    ∀ n : Nat, ∀ s : Sys, Inv bs s → s.w = .done → s.chan.size - s.r.pos = n →
      ∃ t, Steps s t ∧ t.r.pc = .doneOk := by
  intro n
  induction n using Nat.strong_induction_on with
  | _ n ih =>
    intro s hInv hw hn
    obtain ⟨c, w, r⟩ := s
    obtain ⟨p, out, pc⟩ := r
    have hwd : w = .done := hw
    subst hwd
    have hn2 : c.size - p = n := hn
    clear hn
    subst hn2
    have heof : c.eof = true := hInv.hdoneEof rfl
    have hflen : c.flushed = c.written.length := hInv.heofFlushed heof
    have hlen : c.written.length = c.size + wpend WPhase.done := hInv.hsz (by simp)
    simp only [wpend] at hlen
    cases pc with
    | wait =>
      by_cases hps : p < c.size
      · -- observe, read, fill up to the published length, then recurse
        have st1 := Step.rObserve c .done p out (Or.inr heof)
        have st2 := Step.rBranchRead c .done p out c.size c.eof hps
        have hk : 0 < c.size - p := by omega
        have hf : p + (c.size - p) ≤ c.flushed := by omega
        have st3 := Step.rFill c .done p out c.size (c.size - p) hk hf
        have hInv3 : Inv bs ⟨c, .done,
            ⟨p + (c.size - p), out ++ [(c.written.drop p).take (c.size - p)], .wait⟩⟩ :=
          inv_step st3 (inv_step st2 (inv_step st1 hInv))
        obtain ⟨t, hSteps, hpc⟩ :=
          ih (c.size - (p + (c.size - p))) (by omega) _ hInv3 rfl rfl
        exact ⟨t, Relation.ReflTransGen.head st1
          (Relation.ReflTransGen.head st2 (Relation.ReflTransGen.head st3 hSteps)), hpc⟩
      · have st1 := Step.rObserve c .done p out (Or.inr heof)
        have st2 := Step.rBranchDone c .done p out c.size c.eof (by omega) heof
        exact ⟨_, Relation.ReflTransGen.head st1 (Relation.ReflTransGen.single st2), rfl⟩
    | branch sz eo =>
      have h1 : sz ≤ c.size := (hInv.hbranch sz eo rfl).1
      have h2 : p < sz ∨ eo = true := (hInv.hbranch sz eo rfl).2.1
      by_cases hps : p < sz
      · have st1 := Step.rBranchRead c .done p out sz eo hps
        have hk : 0 < sz - p := by omega
        have hf : p + (sz - p) ≤ c.flushed := by omega
        have st2 := Step.rFill c .done p out sz (sz - p) hk hf
        have hInv2 : Inv bs ⟨c, .done,
            ⟨p + (sz - p), out ++ [(c.written.drop p).take (sz - p)], .wait⟩⟩ :=
          inv_step st2 (inv_step st1 hInv)
        obtain ⟨t, hSteps, hpc⟩ := ih (c.size - (p + (sz - p))) (by omega) _ hInv2 rfl rfl
        exact ⟨t, Relation.ReflTransGen.head st1
          (Relation.ReflTransGen.head st2 hSteps), hpc⟩
      · have heo : eo = true := by
          rcases h2 with h2 | h2
          · omega
          · exact h2
        have st1 := Step.rBranchDone c .done p out sz eo (by omega) heo
        exact ⟨_, Relation.ReflTransGen.single st1, rfl⟩
    | readq sz =>
      have h1 : p < sz := (hInv.hreadq sz rfl).1
      have h2 : sz ≤ c.size := (hInv.hreadq sz rfl).2
      have hk : 0 < sz - p := by omega
      have hf : p + (sz - p) ≤ c.flushed := by omega
      have st1 := Step.rFill c .done p out sz (sz - p) hk hf
      have hInv1 : Inv bs ⟨c, .done,
          ⟨p + (sz - p), out ++ [(c.written.drop p).take (sz - p)], .wait⟩⟩ :=
        inv_step st1 hInv
      obtain ⟨t, hSteps, hpc⟩ := ih (c.size - (p + (sz - p))) (by omega) _ hInv1 rfl rfl
      exact ⟨t, Relation.ReflTransGen.head st1 hSteps, hpc⟩
    | doneOk => exact ⟨_, Relation.ReflTransGen.refl, rfl⟩
    | failed =>
      have h := hInv.hfailed rfl
      simp at h

theorem dropped_progress (bs : List (List Nat)) :
    ∀ n : Nat, ∀ s : Sys, Inv bs s → s.w = .dropped → s.chan.size - s.r.pos = n →
      ∃ t, Steps s t ∧ t.r.pc = .failed := by
  intro n
  induction n using Nat.strong_induction_on with
  | _ n ih =>
    intro s hInv hw hn
    obtain ⟨c, w, r⟩ := s
    obtain ⟨p, out, pc⟩ := r
    have hwd : w = .dropped := hw
    subst hwd
    have hn2 : c.size - p = n := hn
    clear hn
    subst hn2
    have hcl : c.closed = true := hInv.hdropClosed rfl
    have heo : c.eof = false := by
      cases h : c.eof
      · rfl
      · have := hInv.heofPhase h
        simp at this
    cases pc with
    | wait =>
      by_cases hps : p < c.size
      · have st1 := Step.rObserve c .dropped p out (Or.inl hps)
        have st2 := Step.rBranchRead c .dropped p out c.size c.eof hps
        by_cases hpf : p < c.flushed
        · have hm1 : min c.size c.flushed ≤ c.flushed := min_le_right _ _
          have hm2 : min c.size c.flushed ≤ c.size := min_le_left _ _
          have hm3 : p < min c.size c.flushed := lt_min hps hpf
          have hk : 0 < min c.size c.flushed - p := by omega
          have hf : p + (min c.size c.flushed - p) ≤ c.flushed := by omega
          have st3 := Step.rFill c .dropped p out c.size (min c.size c.flushed - p) hk hf
          have hInv3 : Inv bs ⟨c, .dropped,
              ⟨p + (min c.size c.flushed - p),
               out ++ [(c.written.drop p).take (min c.size c.flushed - p)], .wait⟩⟩ :=
            inv_step st3 (inv_step st2 (inv_step st1 hInv))
          obtain ⟨t, hSteps, hpc⟩ :=
            ih (c.size - (p + (min c.size c.flushed - p))) (by omega) _ hInv3 rfl rfl
          exact ⟨t, Relation.ReflTransGen.head st1
            (Relation.ReflTransGen.head st2 (Relation.ReflTransGen.head st3 hSteps)), hpc⟩
        · have st3 := Step.rChangedFail c .dropped p out c.size (by omega) hcl
          exact ⟨_, Relation.ReflTransGen.head st1
            (Relation.ReflTransGen.head st2 (Relation.ReflTransGen.single st3)), rfl⟩
      · have hng : ¬(p < c.size ∨ c.eof = true) := by
          simp [heo]
          omega
        have st1 := Step.rObserveFail c .dropped p out hcl hng
        exact ⟨_, Relation.ReflTransGen.single st1, rfl⟩
    | branch sz eo =>
      have h1 : sz ≤ c.size := (hInv.hbranch sz eo rfl).1
      have h2 : p < sz ∨ eo = true := (hInv.hbranch sz eo rfl).2.1
      have h3 : eo = true → c.eof = true ∧ sz = c.size :=
        fun he => ⟨((hInv.hbranch sz eo rfl).2.2 he).1, ((hInv.hbranch sz eo rfl).2.2 he).2⟩
      have heo2 : eo = false := by
        cases h : eo
        · rfl
        · have := (h3 h).1
          rw [heo] at this
          simp at this
      have hps : p < sz := by
        rcases h2 with h2 | h2
        · exact h2
        · rw [heo2] at h2
          simp at h2
      have st1 := Step.rBranchRead c .dropped p out sz eo hps
      by_cases hpf : p < c.flushed
      · have hm1 : min sz c.flushed ≤ c.flushed := min_le_right _ _
        have hm2 : min sz c.flushed ≤ sz := min_le_left _ _
        have hm3 : p < min sz c.flushed := lt_min hps hpf
        have hk : 0 < min sz c.flushed - p := by omega
        have hf : p + (min sz c.flushed - p) ≤ c.flushed := by omega
        have st2 := Step.rFill c .dropped p out sz (min sz c.flushed - p) hk hf
        have hInv2 : Inv bs ⟨c, .dropped,
            ⟨p + (min sz c.flushed - p),
             out ++ [(c.written.drop p).take (min sz c.flushed - p)], .wait⟩⟩ :=
          inv_step st2 (inv_step st1 hInv)
        obtain ⟨t, hSteps, hpc⟩ :=
          ih (c.size - (p + (min sz c.flushed - p))) (by omega) _ hInv2 rfl rfl
        exact ⟨t, Relation.ReflTransGen.head st1
          (Relation.ReflTransGen.head st2 hSteps), hpc⟩
      · have st2 := Step.rChangedFail c .dropped p out sz (by omega) hcl
        exact ⟨_, Relation.ReflTransGen.head st1
          (Relation.ReflTransGen.single st2), rfl⟩
    | readq sz =>
      have h1 : p < sz := (hInv.hreadq sz rfl).1
      have h2 : sz ≤ c.size := (hInv.hreadq sz rfl).2
      by_cases hpf : p < c.flushed
      · have hm1 : min sz c.flushed ≤ c.flushed := min_le_right _ _
        have hm2 : min sz c.flushed ≤ sz := min_le_left _ _
        have hm3 : p < min sz c.flushed := lt_min h1 hpf
        have hk : 0 < min sz c.flushed - p := by omega
        have hf : p + (min sz c.flushed - p) ≤ c.flushed := by omega
        have st1 := Step.rFill c .dropped p out sz (min sz c.flushed - p) hk hf
        have hInv1 : Inv bs ⟨c, .dropped,
            ⟨p + (min sz c.flushed - p),
             out ++ [(c.written.drop p).take (min sz c.flushed - p)], .wait⟩⟩ :=
          inv_step st1 hInv
        obtain ⟨t, hSteps, hpc⟩ :=
          ih (c.size - (p + (min sz c.flushed - p))) (by omega) _ hInv1 rfl rfl
        exact ⟨t, Relation.ReflTransGen.head st1 hSteps, hpc⟩
      · have st1 := Step.rChangedFail c .dropped p out sz (by omega) hcl
        exact ⟨_, Relation.ReflTransGen.single st1, rfl⟩
    | doneOk =>
      have h := (hInv.hdone rfl).1
      rw [heo] at h
      simp at h
    | failed => exact ⟨_, Relation.ReflTransGen.refl, rfl⟩

end ChannelM

namespace ChannelM

theorem doneOk_out {bs : List (List Nat)} {s : Sys} (hInv : Inv bs s)
    (hpc : s.r.pc = .doneOk) :
    s.r.out.flatten = bs.flatten ∧ s.chan.written = bs.flatten ∧
      s.chan.flushed = bs.flatten.length := by
  have heof : s.chan.eof = true := (hInv.hdone hpc).1
  have hpossz : s.r.pos = s.chan.size := (hInv.hdone hpc).2
  have hw : s.w = .done := hInv.heofPhase heof
  have hscript := hInv.hscript (by rw [hw]; simp)
  rw [hw] at hscript
  simp only [scriptRest, List.flatten_nil, List.append_nil] at hscript
  have hlen := hInv.hsz (by rw [hw]; simp)
  rw [hw] at hlen
  simp only [wpend, Nat.add_zero] at hlen
  have hflush := hInv.heofFlushed heof
  have hout := hInv.hout
  have hpl : s.r.pos = s.chan.written.length := by omega
  refine ⟨?_, hscript, by rw [hflush, hscript]⟩
  rw [hout, hpl, List.take_length, hscript]

theorem c1_reach : Reach c1Script c1Done := by
  have h0 : Steps (initSys c1Script) (initSys c1Script) := Relation.ReflTransGen.refl
  have h1 := Relation.ReflTransGen.tail h0
    (Step.wAppend ⟨[], 0, 0, false, false⟩ [1] [[2]] ⟨0, [], .wait⟩)
  have h2 := Relation.ReflTransGen.tail h1 (Step.wPublish _ _ _ _)
  have h3 := Relation.ReflTransGen.tail h2 (Step.wAppend _ [2] [] _)
  have h4 := Relation.ReflTransGen.tail h3 (Step.wPublish _ _ _ _)
  have h5 := Relation.ReflTransGen.tail h4 (Step.wFinFlush _ _)
  have h6 := Relation.ReflTransGen.tail h5 (Step.wFinEof _ _)
  have h7 := Relation.ReflTransGen.tail h6 (Step.rObserve _ _ 0 [] (Or.inr rfl))
  have h8 := Relation.ReflTransGen.tail h7 (Step.rBranchRead _ _ 0 [] _ _ (by decide))
  have h9 := Relation.ReflTransGen.tail h8 (Step.rFill _ _ 0 [] _ 2 (by decide) (by decide))
  have h10 := Relation.ReflTransGen.tail h9 (Step.rObserve _ _ 2 [[1, 2]] (Or.inr rfl))
  have h11 := Relation.ReflTransGen.tail h10
    (Step.rBranchDone _ _ 2 [[1, 2]] _ _ (by decide) rfl)
  exact h11

theorem c5_reach : Reach c5Script c5Drop := by
  have h0 : Steps (initSys c5Script) (initSys c5Script) := Relation.ReflTransGen.refl
  exact Relation.ReflTransGen.tail h0
    (Step.wDropReady ⟨[], 0, 0, false, false⟩ [[5]] ⟨0, [], .wait⟩)

theorem c9_reach : Reach c9Script c9State := by
  have h0 : Steps (initSys c9Script) (initSys c9Script) := Relation.ReflTransGen.refl
  have h1 : Steps (initSys c9Script)
      ⟨⟨[0], 0, 0, false, false⟩, .wrote 1 [List.replicate 8192 0], ⟨0, [], .wait⟩⟩ :=
    Relation.ReflTransGen.tail h0
      (Step.wAppend ⟨[], 0, 0, false, false⟩ [0] [List.replicate 8192 0] ⟨0, [], .wait⟩)
  have h2 : Steps (initSys c9Script)
      ⟨⟨[0], 0, 1, false, false⟩, .ready [List.replicate 8192 0], ⟨0, [], .wait⟩⟩ :=
    Relation.ReflTransGen.tail h1
      (Step.wPublish ⟨[0], 0, 0, false, false⟩ 1 [List.replicate 8192 0] ⟨0, [], .wait⟩)
  have h3 : Steps (initSys c9Script)
      ⟨⟨0 :: List.replicate 8192 0, 0, 1, false, false⟩,
       .wrote (List.replicate 8192 0).length [], ⟨0, [], .wait⟩⟩ :=
    Relation.ReflTransGen.tail h2
      (Step.wAppend ⟨[0], 0, 1, false, false⟩ (List.replicate 8192 0) [] ⟨0, [], .wait⟩)
  have h4 : Steps (initSys c9Script)
      ⟨⟨0 :: List.replicate 8192 0, 8193, 1, false, false⟩,
       .wrote (List.replicate 8192 0).length [], ⟨0, [], .wait⟩⟩ :=
    Relation.ReflTransGen.tail h3
      (Step.wFlush ⟨0 :: List.replicate 8192 0, 0, 1, false, false⟩
        (.wrote (List.replicate 8192 0).length []) ⟨0, [], .wait⟩ 8193
        (by decide) (by rw [List.length_cons, List.length_replicate]))
  have h5 : Steps (initSys c9Script)
      ⟨⟨0 :: List.replicate 8192 0, 8193, 1, false, false⟩,
       .wrote (List.replicate 8192 0).length [], ⟨0, [], .branch 1 false⟩⟩ :=
    Relation.ReflTransGen.tail h4
      (Step.rObserve ⟨0 :: List.replicate 8192 0, 8193, 1, false, false⟩
        (.wrote (List.replicate 8192 0).length []) 0 [] (Or.inl (by decide)))
  have h6 : Steps (initSys c9Script)
      ⟨⟨0 :: List.replicate 8192 0, 8193, 1, false, false⟩,
       .wrote (List.replicate 8192 0).length [], ⟨0, [], .readq 1⟩⟩ :=
    Relation.ReflTransGen.tail h5
      (Step.rBranchRead ⟨0 :: List.replicate 8192 0, 8193, 1, false, false⟩
        (.wrote (List.replicate 8192 0).length []) 0 [] 1 false (by decide))
  exact Relation.ReflTransGen.tail h6
    (Step.rFill ⟨0 :: List.replicate 8192 0, 8193, 1, false, false⟩
      (.wrote (List.replicate 8192 0).length []) 0 [] 1 8192 (by decide) (by decide))

end ChannelM

/-- C1: for every writer script `write(b_1), …, write(b_n), finish`, in every
interleaving, a reader cursor that terminates normally has emitted blocks
concatenating to `b_1 ++ … ++ b_n`, and at that point the backing file (the
file `keep()` persists) holds exactly these bytes, all flushed; moreover once
`finish` completed, the cursor can always run to normal termination with that
output, no matter when it was opened. -/
theorem C1_fanout_stream_concat (bs : List (List Nat)) (s : ChannelM.Sys)
    (h : ChannelM.Reach bs s) :
    (s.r.pc = .doneOk →
      s.r.out.flatten = bs.flatten ∧ s.chan.written = bs.flatten ∧
        s.chan.flushed = bs.flatten.length) ∧
    (s.w = .done → ∃ t, ChannelM.Steps s t ∧ t.r.pc = .doneOk ∧
      t.r.out.flatten = bs.flatten) := by
  have hInv := ChannelM.inv_reach h
  constructor
  · intro hpc
    exact ChannelM.doneOk_out hInv hpc
  · intro hw
    obtain ⟨t, hSteps, hpc⟩ :=
      ChannelM.done_progress bs (s.chan.size - s.r.pos) s hInv hw rfl
    have hInvT := ChannelM.inv_reach (ChannelM.reach_steps h hSteps)
    exact ⟨t, hSteps, hpc, (ChannelM.doneOk_out hInvT hpc).1⟩

/-- Witness for C1: the concrete run `write [1]; write [2]; finish` with a
reader that consumed everything ends with the reader having emitted exactly
`[1, 2]`, the backing file holding `[1, 2]`, fully flushed. -/
theorem C1_fanout_stream_concat_witness :
    ChannelM.c1Done.r.out.flatten = ChannelM.c1Script.flatten ∧
    ChannelM.c1Done.chan.written = ChannelM.c1Script.flatten ∧
    ChannelM.c1Done.chan.flushed = ChannelM.c1Script.flatten.length :=
  (C1_fanout_stream_concat ChannelM.c1Script ChannelM.c1Done ChannelM.c1_reach).1 rfl

/-- C5: once the writer is dropped without `finish`, no continuation of any
reader cursor — already open or opened later — can terminate normally, and
every cursor can run to the broken-pipe failure; and dropping the channel
while `keep` was not called removes the backing file from its directory. -/
theorem C5_drop_semantics (bs : List (List Nat)) (s : ChannelM.Sys)
    (h : ChannelM.Reach bs s) (hd : s.w = .dropped) :
    (∀ t, ChannelM.Steps s t → t.r.pc ≠ .doneOk) ∧
    (∃ t, ChannelM.Steps s t ∧ t.r.pc = .failed) ∧
    (∀ tf : TempState, tf.kept = false → (channelDrop tf).onDisk = false) := by
  refine ⟨?_, ?_, ?_⟩
  · intro t hSteps hpc
    have hdt := ChannelM.steps_keeps_dropped hSteps hd
    have hInvT := ChannelM.inv_reach (ChannelM.reach_steps h hSteps)
    have heof := (hInvT.hdone hpc).1
    have hwt := hInvT.heofPhase heof
    rw [hdt] at hwt
    simp at hwt
  · exact ChannelM.dropped_progress bs (s.chan.size - s.r.pos) s
      (ChannelM.inv_reach h) hd rfl
  · intro tf hk
    simp [channelDrop, hk]

/-- Witness for C5: from the concrete dropped state, the cursor is not
terminated normally, and dropping an unkept temp file removes it. -/
theorem C5_drop_semantics_witness :
    ChannelM.c5Drop.r.pc ≠ ChannelM.RPC.doneOk ∧
    (channelDrop ⟨false, true⟩).onDisk = false := by
  have h := C5_drop_semantics ChannelM.c5Script ChannelM.c5Drop ChannelM.c5_reach rfl
  exact ⟨h.1 ChannelM.c5Drop Relation.ReflTransGen.refl, h.2.2 ⟨false, true⟩ rfl⟩

/-- C9 (amended): in every reachable state, the cursor position never exceeds
the number of bytes flushed to the backing file (which never exceeds the
bytes written), and whenever the cursor is at the eof branch with its
position at or past the observed published length, the observed eof flag is
true — so the `assert!(eof)` can never fail.  The cursor position CAN,
however, transiently exceed the currently published length (see the
counterexample), because the buffered writer can flush bytes to the file
before publishing them. -/
theorem C9_cursor_invariant (bs : List (List Nat)) (s : ChannelM.Sys)
    (h : ChannelM.Reach bs s) :
    s.r.pos ≤ s.chan.flushed ∧ s.chan.flushed ≤ s.chan.written.length ∧
    (∀ sz eo, s.r.pc = .branch sz eo → sz ≤ s.r.pos → eo = true) := by
  have hInv := ChannelM.inv_reach h
  refine ⟨hInv.hpos, hInv.hfl, ?_⟩
  intro sz eo hpc hle
  rcases (hInv.hbranch sz eo hpc).2.1 with h' | h'
  · omega
  · exact h'

/-- Counterexample for C9 as stated: a reachable state (1-byte write
published, 8192-byte write flushed to the file but not yet published, reader
consumed 8192 bytes) in which the cursor position 8192 strictly exceeds the
published length 1. -/
theorem C9_cursor_counterexample :
    ChannelM.Reach ChannelM.c9Script ChannelM.c9State ∧
    ChannelM.c9State.chan.size < ChannelM.c9State.r.pos :=
  ⟨ChannelM.c9_reach, by decide⟩

/-- Witness for C9 (amended) at the concrete reachable state of the
counterexample run: position 8192 is within the flushed 8193 bytes, which are
within the 8193 written bytes. -/
theorem C9_cursor_invariant_witness :
    ChannelM.c9State.r.pos ≤ ChannelM.c9State.chan.flushed ∧
    ChannelM.c9State.chan.flushed ≤ ChannelM.c9State.chan.written.length := by
  have h := C9_cursor_invariant ChannelM.c9Script ChannelM.c9State ChannelM.c9_reach
  exact ⟨h.1, h.2.1⟩

namespace ResetM

theorem gen_applyWrites (cs : List (List Nat)) :
    ∀ s : ChanR, (applyWrites s cs).gen = s.gen := by
  induction cs with
  | nil => intro s; rfl
  | cons b bs ih =>
    intro s
    show (applyWrites (writeW s b) bs).gen = s.gen
    rw [ih (writeW s b)]
    rfl

theorem content_applyWrites (cs : List (List Nat)) :
    ∀ s : ChanR, (applyWrites s cs).content = s.content ++ cs.flatten := by
  induction cs with
  | nil => intro s; simp [applyWrites]
  | cons b bs ih =>
    intro s
    show (applyWrites (writeW s b) bs).content = s.content ++ (b :: bs).flatten
    rw [ih (writeW s b)]
    simp [writeW, List.flatten_cons, List.append_assoc]

end ResetM

/-- C3 (modelled from the spec, `Writer::reset` being absent from the
`src/channel.rs` snapshot): `reset` truncates the contents to zero length and
publishes `(length=0, eof=false, generation+1)`; every cursor whose position
is nonzero at the reset fails with the reset error (surfaced as broken pipe)
no matter how the channel continues; a stream opened after the reset that
reads to the end observes exactly the post-reset byte sequence; and on an
empty channel, reset leaves the reader-observable state unchanged, so it is
idempotent. -/
theorem C3_reset_model (s : ResetM.ChanR) (cs : List (List Nat)) (p : Nat) :
    ((ResetM.resetW s).content = [] ∧ (ResetM.resetW s).size = 0 ∧
      (ResetM.resetW s).eof = false ∧ (ResetM.resetW s).gen = s.gen + 1) ∧
    (p ≠ 0 →
      ResetM.cursorRead (ResetM.applyWrites (ResetM.resetW s) cs) s.gen p = .error ()) ∧
    (ResetM.cursorRead (ResetM.finishW (ResetM.applyWrites (ResetM.resetW s) cs))
      (ResetM.resetW s).gen 0 = .ok cs.flatten) ∧
    (s.content = [] → s.size = 0 → s.eof = false →
      ResetM.obsR (ResetM.resetW s) = ResetM.obsR s ∧
      ResetM.obsR (ResetM.resetW (ResetM.resetW s)) = ResetM.obsR (ResetM.resetW s)) := by
  refine ⟨⟨rfl, rfl, rfl, rfl⟩, ?_, ?_, ?_⟩
  · intro hp
    have hg : (ResetM.applyWrites (ResetM.resetW s) cs).gen = s.gen + 1 := by
      rw [ResetM.gen_applyWrites cs (ResetM.resetW s)]
      rfl
    simp only [ResetM.cursorRead]
    rw [if_pos ⟨hp, by rw [hg]; omega⟩]
  · simp only [ResetM.cursorRead, ResetM.finishW]
    rw [if_neg (by simp)]
    rw [ResetM.content_applyWrites cs (ResetM.resetW s)]
    simp [ResetM.resetW]
  · intro h1 h2 h3
    constructor
    · simp [ResetM.obsR, ResetM.resetW, h1, h2, h3]
    · rfl

/-- Witness for C3: on a fresh channel, after a reset followed by `write [7]`,
a cursor that had position 1 fails, a fresh cursor reads `[7]`, and the reset
of the fresh (empty) channel is observably a no-op. -/
theorem C3_reset_model_witness :
    ResetM.cursorRead (ResetM.applyWrites (ResetM.resetW ResetM.initR) [[7]])
      ResetM.initR.gen 1 = .error () ∧
    ResetM.cursorRead (ResetM.finishW (ResetM.applyWrites (ResetM.resetW ResetM.initR) [[7]]))
      (ResetM.resetW ResetM.initR).gen 0 = .ok [7] ∧
    ResetM.obsR (ResetM.resetW ResetM.initR) = ResetM.obsR ResetM.initR := by
  have h := C3_reset_model ResetM.initR [[7]] 1
  exact ⟨h.2.1 (by decide), h.2.2.1, (h.2.2.2 rfl rfl rfl).1⟩

/-- Counterexample for C2 as stated: with a cache configured, a failing
`cache.put` on the miss path makes the download return an error — a
client-visible `Complete{error}` caused by a cache failure alone — whereas
the identical environment without a cache succeeds. -/
theorem C2_put_error_counterexample :
    (download c2Env).1 = .error (.lfs 500) ∧
    (download { c2Env with cacheConfigured := false }).1 = .ok 1 :=
  ⟨rfl, rfl⟩

/-- C2 (amended): a failure of the cache-hit attempt (`cache.get` and its
fan-out) is absorbed — the download result does not depend on which error the
hit attempt produced and equals the fallback (authoritative-server) outcome —
but a failure of `cache.put` in the miss-path `try_join3` is NOT absorbed: it
becomes the error of the join and thus of the request. -/
theorem C2_cache_get_absorbed (env : DownloadEnv) :
    (∀ e e' : AErr, download { env with hitGet := .error e } =
      download { env with hitGet := .error e' }) ∧
    (∀ e : AErr, env.cacheConfigured = true → env.hitGet = .error e →
      download env = fallbackResult env) ∧
    (∀ e : AErr, env.cacheConfigured = true → env.writerTask = .ok () →
      env.putResult = .error e → missJoin env = .error e) := by
  refine ⟨?_, ?_, ?_⟩
  · intro e e'
    rfl
  · intro e hc hg
    simp [download, hitOutcome, hc, hg]
  · intro e hc hw hp
    simp [missJoin, hc, hw, hp]

/-- Witness for C2 (amended) at the concrete environment of the
counterexample. -/
theorem C2_cache_get_absorbed_witness :
    download { c2Env with hitGet := .error (.other 1) } =
      download { c2Env with hitGet := .error (.other 2) } ∧
    download c2Env = fallbackResult c2Env ∧
    missJoin c2Env = .error (.lfs 500) := by
  have h := C2_cache_get_absorbed c2Env
  exact ⟨h.1 (.other 1) (.other 2), h.2.1 (.lfs 500) rfl rfl, h.2.2 (.lfs 500) rfl rfl rfl⟩

/-- C6: when the discovery phase succeeds and the first batch attempt fails
with a git-lfs error of status 401, discovery is re-derived exactly once with
`authorize=true` and the batch is retried exactly once, the retried attempt's
result (success or failure) becoming the request's outcome; a first failure
with any other status surfaces directly with no retry and no authorized
re-derivation; and a failing authorized re-derivation surfaces as well. -/
theorem C6_batch_401_retry (env : DownloadEnv) :
    (∀ d d2 : Nat, (serverDiscoveryM env false emptyTrace).1 = .ok d →
      env.batch1 = .error (.lfs 401) → env.disc1 = .ok d2 →
      (batchPhase env).1 = env.batch2 ∧ (batchPhase env).2.batchCalls = 2 ∧
      (batchPhase env).2.derivations.count true = 1) ∧
    (∀ d c : Nat, (serverDiscoveryM env false emptyTrace).1 = .ok d →
      env.batch1 = .error (.lfs c) → c ≠ 401 →
      (batchPhase env).1 = .error (.lfs c) ∧ (batchPhase env).2.batchCalls = 1 ∧
      (batchPhase env).2.derivations.count true = 0) ∧
    (∀ d : Nat, ∀ e : AErr, (serverDiscoveryM env false emptyTrace).1 = .ok d →
      env.batch1 = .error (.lfs 401) → env.disc1 = .error e →
      (batchPhase env).1 = .error e ∧
      (batchPhase env).2.derivations.count true = 1) := by
  refine ⟨?_, ?_, ?_⟩
  · intro d d2 hd hb1 hd1
    cases hcd : env.cachedDisc with
    | some d0 =>
      simp [batchPhase, serverDiscoveryM, hcd, hb1, hd1, emptyTrace]
    | none =>
      simp only [serverDiscoveryM, hcd] at hd
      simp at hd
      simp [batchPhase, serverDiscoveryM, hcd, hd, hb1, hd1, emptyTrace]
  · intro d c hd hb1 hc
    have hne : AErr.lfs c ≠ AErr.lfs 401 := by simp [hc]
    cases hcd : env.cachedDisc with
    | some d0 =>
      simp [batchPhase, serverDiscoveryM, hcd, hb1, hne, emptyTrace]
    | none =>
      simp only [serverDiscoveryM, hcd] at hd
      simp at hd
      simp [batchPhase, serverDiscoveryM, hcd, hd, hb1, hne, emptyTrace]
  · intro d e hd hb1 hd1
    cases hcd : env.cachedDisc with
    | some d0 =>
      simp [batchPhase, serverDiscoveryM, hcd, hb1, hd1, emptyTrace]
    | none =>
      simp only [serverDiscoveryM, hcd] at hd
      simp at hd
      simp [batchPhase, serverDiscoveryM, hcd, hd, hb1, hd1, emptyTrace]

/-- Witness for C6: in the concrete 401 environment, the batch is attempted
twice, the retried attempt's result is the outcome, and exactly one
authorized discovery derivation happened. -/
theorem C6_batch_401_retry_witness :
    (batchPhase c6Env).1 = c6Env.batch2 ∧ (batchPhase c6Env).2.batchCalls = 2 ∧
    (batchPhase c6Env).2.derivations.count true = 1 := by
  have h := C6_batch_401_retry c6Env
  exact h.1 0 0 rfl rfl rfl

/-- C7: the classification fed to the HTTP cache backend's exponential
backoff, for one attempt of `get` and of `put`: request-construction errors
are permanent; a transport error sending the request is transient; a 408 or
5xx response is transient; any other 4xx response is permanent; and
transport errors while streaming a body are transient (for `get` both on the
success branch and while collecting an error body). -/
theorem C7_http_backoff_classes (a : HttpAttemptEnv) :
    (a.buildOk = false →
      getAttempt a = .permanent (.other 0) ∧ putAttempt a = .permanent (.other 0)) ∧
    (a.buildOk = true → a.sendOk = false →
      getAttempt a = .transient (.other 1) ∧ putAttempt a = .transient (.other 1)) ∧
    (a.buildOk = true → a.sendOk = true → a.streamOk = true →
      (a.status = 408 ∨ (500 ≤ a.status ∧ a.status < 600)) →
      getAttempt a = .transient (.lfs a.status) ∧
        putAttempt a = .transient (.lfs a.status)) ∧
    (a.buildOk = true → a.sendOk = true → a.streamOk = true →
      400 ≤ a.status → a.status < 500 → a.status ≠ 408 →
      getAttempt a = .permanent (.lfs a.status) ∧
        putAttempt a = .permanent (.lfs a.status)) ∧
    (a.buildOk = true → a.sendOk = true → 200 ≤ a.status → a.status < 300 →
      a.writerOk = true → a.streamOk = false → getAttempt a = .transient (.other 3)) ∧
    (a.buildOk = true → a.sendOk = true → ¬(200 ≤ a.status ∧ a.status < 300) →
      a.streamOk = false →
      getAttempt a = .transient (.other 3) ∧ putAttempt a = .transient (.other 3)) := by
  refine ⟨?_, ?_, ?_, ?_, ?_, ?_⟩
  · intro hb
    constructor <;> simp [getAttempt, putAttempt, hb]
  · intro hb hs
    constructor <;> simp [getAttempt, putAttempt, hb, hs]
  · intro hb hs hstream hst
    have h2xx : ¬(200 ≤ a.status ∧ a.status < 300) := by
      rcases hst with h | h <;> omega
    constructor
    · simp only [getAttempt]
      rw [if_neg (by simp [hb]), if_neg (by simp [hs]), if_neg h2xx,
        if_neg (by simp [hstream]), if_pos hst]
    · simp only [putAttempt]
      rw [if_neg (by simp [hb]), if_neg (by simp [hs]), if_neg h2xx,
        if_neg (by simp [hstream]), if_pos hst]
  · intro hb hs hstream h400 h500 h408
    have h2xx : ¬(200 ≤ a.status ∧ a.status < 300) := by omega
    have hnst : ¬(a.status = 408 ∨ (500 ≤ a.status ∧ a.status < 600)) := by omega
    constructor
    · simp only [getAttempt]
      rw [if_neg (by simp [hb]), if_neg (by simp [hs]), if_neg h2xx,
        if_neg (by simp [hstream]), if_neg hnst]
    · simp only [putAttempt]
      rw [if_neg (by simp [hb]), if_neg (by simp [hs]), if_neg h2xx,
        if_neg (by simp [hstream]), if_neg hnst]
  · intro hb hs h200 h300 hw hstream
    simp only [getAttempt]
    rw [if_neg (by simp [hb]), if_neg (by simp [hs]), if_pos ⟨h200, h300⟩,
      if_neg (by simp [hw]), if_pos hstream]
  · intro hb hs h2xx hstream
    constructor
    · simp only [getAttempt]
      rw [if_neg (by simp [hb]), if_neg (by simp [hs]), if_neg h2xx, if_pos hstream]
    · simp only [putAttempt]
      rw [if_neg (by simp [hb]), if_neg (by simp [hs]), if_neg h2xx, if_pos hstream]

/-- Witness for C7: a 503 response with working transport is classified
transient for both methods, and a failed construction is permanent. -/
theorem C7_http_backoff_classes_witness :
    getAttempt ⟨true, true, 503, true, true⟩ = .transient (.lfs 503) ∧
    putAttempt ⟨true, true, 503, true, true⟩ = .transient (.lfs 503) ∧
    getAttempt ⟨false, true, 200, true, true⟩ = .permanent (.other 0) := by
  have h1 := C7_http_backoff_classes ⟨true, true, 503, true, true⟩
  have h2 := C7_http_backoff_classes ⟨false, true, 200, true, true⟩
  have h3 := h1.2.2.1 rfl rfl rfl (Or.inr (by constructor <;> decide))
  exact ⟨h3.1, h3.2, (h2.1 rfl).1⟩

theorem pstep_foldl_inv (blocks : List (List Nat)) :
    ∀ sf sl : Nat, ∀ evs : List PEvent,
      (evs.map PEvent.bytesSinceLast).sum + sl = sf →
      List.Chain' (fun x y => x.bytesSoFar ≤ y.bytesSoFar) evs →
      (∀ ev, evs.getLast? = some ev → ev.bytesSoFar + sl = sf) →
      ((blocks.foldl pstep (sf, sl, evs)).2.2.map PEvent.bytesSinceLast).sum +
          (blocks.foldl pstep (sf, sl, evs)).2.1 = (blocks.foldl pstep (sf, sl, evs)).1 ∧
      List.Chain' (fun x y => x.bytesSoFar ≤ y.bytesSoFar)
        (blocks.foldl pstep (sf, sl, evs)).2.2 ∧
      (∀ ev, (blocks.foldl pstep (sf, sl, evs)).2.2.getLast? = some ev →
        ev.bytesSoFar + (blocks.foldl pstep (sf, sl, evs)).2.1 =
          (blocks.foldl pstep (sf, sl, evs)).1) ∧
      (blocks.foldl pstep (sf, sl, evs)).1 = sf + totalBytes blocks := by
  induction blocks with
  | nil =>
    intro sf sl evs h1 h2 h3
    exact ⟨h1, h2, h3, by simp [totalBytes]⟩
  | cons b bs ih =>
    intro sf sl evs h1 h2 h3
    simp only [List.foldl_cons]
    by_cases hsl : 65536 ≤ sl + b.length
    · have hps : pstep (sf, sl, evs) b =
          (sf + b.length, 0, evs ++ [⟨sf + b.length, sl + b.length⟩]) := by
        simp [pstep, hsl]
      rw [hps]
      obtain ⟨i1, i2, i3, i4⟩ := ih (sf + b.length) 0
        (evs ++ [⟨sf + b.length, sl + b.length⟩])
        (by simp [List.map_append, List.sum_append]; omega)
        (by
          refine List.Chain'.append h2 (by simp) ?_
          intro x hx y hy
          simp at hy
          subst hy
          have := h3 x hx
          simp only []
          omega)
        (by
          intro ev hev
          rw [List.getLast?_concat] at hev
          cases hev
          simp)
      refine ⟨i1, i2, i3, ?_⟩
      rw [i4]
      simp only [totalBytes, List.map_cons, List.sum_cons]
      omega
    · have hps : pstep (sf, sl, evs) b = (sf + b.length, sl + b.length, evs) := by
        simp [pstep, hsl]
      rw [hps]
      obtain ⟨i1, i2, i3, i4⟩ := ih (sf + b.length) (sl + b.length) evs
        (by omega) h2
        (by
          intro ev hev
          have := h3 ev hev
          omega)
      refine ⟨i1, i2, i3, ?_⟩
      rw [i4]
      simp only [totalBytes, List.map_cons, List.sum_cons]
      omega

/-- C8: across the progress events emitted for one download, `bytesSoFar` is
non-decreasing, the sum of all `bytesSinceLast` equals the total number of
bytes consumed, and the last event's `bytesSoFar` equals that total. -/
theorem C8_progress_monotone (blocks : List (List Nat)) :
    List.Chain' (fun x y => x.bytesSoFar ≤ y.bytesSoFar) (progressRun blocks) ∧
    ((progressRun blocks).map PEvent.bytesSinceLast).sum = totalBytes blocks ∧
    (∀ ev, (progressRun blocks).getLast? = some ev →
      ev.bytesSoFar = totalBytes blocks) := by
  obtain ⟨i1, i2, i3, i4⟩ :=
    pstep_foldl_inv blocks 0 0 [] (by simp) (by simp) (by simp)
  by_cases hsl : 0 < (blocks.foldl pstep (0, 0, [])).2.1
  · simp only [progressRun]
    rw [if_pos hsl]
    refine ⟨?_, ?_, ?_⟩
    · refine List.Chain'.append i2 (by simp) ?_
      intro x hx y hy
      simp at hy
      subst hy
      have := i3 x hx
      simp only []
      omega
    · simp only [List.map_append, List.sum_append]
      simp only [List.map_cons, List.sum_cons, List.map_nil, List.sum_nil]
      omega
    · intro ev hev
      rw [List.getLast?_concat] at hev
      cases hev
      simp only []
      omega
  · have hz : (blocks.foldl pstep (0, 0, [])).2.1 = 0 := by omega
    simp only [progressRun]
    rw [if_neg hsl]
    refine ⟨i2, by omega, ?_⟩
    intro ev hev
    have := i3 ev hev
    omega

/-- Witness for C8 on the concrete block sequence `[[1], [2]]`: the emitted
events sum to the 2 consumed bytes and the last event reports them all. -/
theorem C8_progress_monotone_witness :
    ((progressRun [[1], [2]]).map PEvent.bytesSinceLast).sum = totalBytes [[1], [2]] ∧
    PEvent.bytesSoFar ⟨2, 2⟩ = totalBytes [[1], [2]] := by
  have h := C8_progress_monotone [[1], [2]]
  exact ⟨h.2.1, h.2.2 ⟨2, 2⟩ rfl⟩

theorem repGit_succ (k : Nat) : repGit (k + 1) = gitSuffix ++ repGit k := by
  simp [repGit, List.replicate_succ]

theorem repGit_comm (k : Nat) : repGit k ++ gitSuffix = gitSuffix ++ repGit k := by
  induction k with
  | zero => simp [repGit]
  | succ k ih =>
    rw [repGit_succ, List.append_assoc, ih, ← List.append_assoc]

theorem rev_flatten_replicate (k : Nat) :
    ((List.replicate k revGit).flatten).reverse = repGit k := by
  induction k with
  | zero => simp [repGit]
  | succ k ih =>
    rw [List.replicate_succ]
    simp only [List.flatten_cons, List.reverse_append]
    rw [ih]
    have hrev : revGit.reverse = gitSuffix := by decide
    rw [hrev, repGit_comm, ← repGit_succ]

theorem stripGitAux_spec :
    ∀ fuel : Nat, ∀ s : List Char, s.length ≤ fuel →
      (∃ k : Nat, s = (List.replicate k revGit).flatten ++ stripGitAux fuel s) ∧
      (stripGitAux fuel s).take 4 ≠ revGit := by
  intro fuel
  induction fuel with
  | zero =>
    intro s hs
    have hnil : s = [] := List.eq_nil_of_length_eq_zero (by omega)
    subst hnil
    refine ⟨⟨0, by simp [stripGitAux]⟩, ?_⟩
    simp [stripGitAux]
    decide
  | succ fuel ih =>
    intro s hs
    by_cases h4 : s.take 4 = revGit
    · have hlen4 : 4 ≤ s.length := by
        have hl := congrArg List.length h4
        rw [List.length_take] at hl
        have hrl : revGit.length = 4 := by decide
        rw [hrl] at hl
        omega
      have hdrop : (s.drop 4).length ≤ fuel := by
        simp [List.length_drop]
        omega
      obtain ⟨⟨k, hk⟩, hne⟩ := ih (s.drop 4) hdrop
      have hstep : stripGitAux (fuel + 1) s = stripGitAux fuel (s.drop 4) := by
        simp [stripGitAux, h4]
      refine ⟨⟨k + 1, ?_⟩, by rw [hstep]; exact hne⟩
      rw [hstep]
      conv_lhs => rw [← List.take_append_drop 4 s]
      rw [h4]
      conv_lhs => rw [hk]
      simp [List.replicate_succ, List.append_assoc]
    · have hstep : stripGitAux (fuel + 1) s = s := by simp [stripGitAux, h4]
      rw [hstep]
      exact ⟨⟨0, by simp⟩, h4⟩

theorem trimEndGit_spec (p : List Char) :
    ∃ q k, p = q ++ repGit k ∧ (¬∃ r, q = r ++ gitSuffix) ∧ trimEndGit p = q := by
  obtain ⟨⟨k, hk⟩, hne⟩ := stripGitAux_spec p.reverse.length p.reverse (le_refl _)
  have hne2 : (stripGitRev p.reverse).take 4 ≠ revGit := hne
  have hk2 : p.reverse = (List.replicate k revGit).flatten ++ stripGitRev p.reverse := hk
  refine ⟨(stripGitRev p.reverse).reverse, k, ?_, ?_, rfl⟩
  · have hp := congrArg List.reverse hk2
    rw [List.reverse_reverse, List.reverse_append, rev_flatten_replicate] at hp
    exact hp
  · rintro ⟨r, hr⟩
    have hq : stripGitRev p.reverse = (r ++ gitSuffix).reverse := by
      rw [← hr, List.reverse_reverse]
    rw [List.reverse_append] at hq
    have hgs : gitSuffix.reverse = revGit := by decide
    rw [hgs] at hq
    apply hne2
    rw [hq, List.take_append_of_le_length (by decide)]
    decide

/-- C4 (amended): for http(s) remotes, a custom configured URL is returned
verbatim; otherwise the href path is the base path with ALL trailing
repetitions of `.git` removed (Rust's `trim_end_matches`, not a single
strip), followed by `.git/info/lfs` — in particular the claim's two concrete
examples `/foo/bar` and `/foo/bar.git` both map to
`/foo/bar.git/info/lfs`. -/
theorem C4_href_suffix_trim (custom : Bool) (p : List Char) :
    (custom = true → serverDiscoveryHrefPath custom p = p) ∧
    (custom = false → ∃ q k, p = q ++ repGit k ∧ (¬∃ r, q = r ++ gitSuffix) ∧
      serverDiscoveryHrefPath custom p = q ++ gitInfoLfs) ∧
    serverDiscoveryHrefPath false "/foo/bar".data = "/foo/bar.git/info/lfs".data ∧
    serverDiscoveryHrefPath false "/foo/bar.git".data = "/foo/bar.git/info/lfs".data := by
  refine ⟨?_, ?_, ?_, ?_⟩
  · intro hc
    simp [serverDiscoveryHrefPath, hc]
  · intro hc
    obtain ⟨q, k, hp, hq, ht⟩ := trimEndGit_spec p
    exact ⟨q, k, hp, hq, by simp [serverDiscoveryHrefPath, hc, ht]⟩
  · decide
  · decide

/-- Counterexample for C4 as stated ("stripping an existing `.git` suffix
once"): on the base path `/foo/bar.git.git` the code strips BOTH trailing
`.git` suffixes before re-appending one, yielding `/foo/bar.git/info/lfs`,
while the strip-once reading of the spec yields
`/foo/bar.git.git/info/lfs`. -/
theorem C4_strip_once_counterexample :
    serverDiscoveryHrefPath false "/foo/bar.git.git".data ≠
      specHrefPathStripOnce false "/foo/bar.git.git".data ∧
    serverDiscoveryHrefPath false "/foo/bar.git.git".data =
      "/foo/bar.git/info/lfs".data ∧
    specHrefPathStripOnce false "/foo/bar.git.git".data =
      "/foo/bar.git.git/info/lfs".data := by
  refine ⟨by decide, by decide, by decide⟩

/-- Witness for C4 (amended): a custom URL path passes through verbatim, and
the two example paths of the claim yield the documented href path. -/
theorem C4_href_suffix_trim_witness :
    serverDiscoveryHrefPath true "/custom/url".data = "/custom/url".data ∧
    serverDiscoveryHrefPath false "/foo/bar".data = "/foo/bar.git/info/lfs".data ∧
    serverDiscoveryHrefPath false "/foo/bar.git".data = "/foo/bar.git/info/lfs".data := by
  have h1 := C4_href_suffix_trim true "/custom/url".data
  have h2 := C4_href_suffix_trim false "/foo/bar".data
  exact ⟨h1.1 rfl, h2.2.2.1, h2.2.2.2⟩

/-- C10: the filesystem cache addresses every oid of at least 4 (single-byte)
characters at `dir/<oid[0:2]>/<oid[2:4]>/<oid>` in both `get` and `put`, but
for every shorter oid the unchecked slices `oid[..2]`/`oid[2..4]` panic
(modelled as `none`) before any I/O, instead of returning an error. -/
theorem C10_fs_path_slicing (oid : List Char) :
    (4 ≤ oid.length →
      cachePath oid = some [oid.take 2, (oid.drop 2).take 2, oid] ∧
      fsGet oid = some [oid.take 2, (oid.drop 2).take 2, oid] ∧
      fsPut oid = some [oid.take 2, (oid.drop 2).take 2, oid]) ∧
    (oid.length < 4 → cachePath oid = none ∧ fsGet oid = none ∧ fsPut oid = none) := by
  constructor
  · intro h4
    have hs1 : strSlice oid 0 2 = some (oid.take 2) := by
      simp only [strSlice]
      rw [if_pos ⟨by omega, by omega⟩]
      simp
    have hs2 : strSlice oid 2 4 = some ((oid.drop 2).take 2) := by
      simp only [strSlice]
      rw [if_pos ⟨by omega, by omega⟩]
    refine ⟨?_, ?_, ?_⟩ <;> simp [cachePath, fsGet, fsPut, hs1, hs2]
  · intro hlt
    have hs2 : strSlice oid 2 4 = none := by
      simp only [strSlice]
      rw [if_neg (by omega)]
    cases hx : strSlice oid 0 2 <;>
      refine ⟨?_, ?_, ?_⟩ <;> simp [cachePath, fsGet, fsPut, hx, hs2]

/-- Witness for C10: the 4-character oid `abcd` is addressed at
`ab/cd/abcd`, while the 2-character oid `ab` panics in both `get` and
`put`. -/
theorem C10_fs_path_slicing_witness :
    cachePath "abcd".data =
      some ["abcd".data.take 2, ("abcd".data.drop 2).take 2, "abcd".data] ∧
    fsGet "ab".data = none ∧ fsPut "ab".data = none := by
  have h4 := C10_fs_path_slicing "abcd".data
  have h2 := C10_fs_path_slicing "ab".data
  exact ⟨(h4.1 (by decide)).1, (h2.2 (by decide)).2.1, (h2.2 (by decide)).2.2⟩
